import Mathlib

/-!
Verification of the storage-and-codec core of `zarr-python` (obstore-backed
store adapter, path normalization, byte-range model, zstd codec) against its
natural-language specification.

The Python source is shallowly embedded: pure functions become Lean functions,
Python exceptions become `Except`/`Option` results, byte strings become
`List Nat`, and the external `obstore` backend is modelled as a map from keys
to either a payload or the error the backend signals for that key.
-/

namespace Zarr

/-! ## Zstd codec (`src/zarr/v3/codecs/zstd.py`) -/

/-- Embeds `parse_zstd_level`: accepts an `int` level and rejects values `>= 23`
with a `ValueError` (the spec's `ConfigError`).  The Python function also raises
`TypeError` on non-`int` input; the embedding's domain is the `int` inputs the
claims quantify over, so that branch is outside the domain. -/
def parse_zstd_level (data : Int) : Except String Int :=
  if data ≥ 23 then
    .error "Value must be less than or equal to 22."
  else
    .ok data

/-- Embeds `parse_checksum`: accepts a `bool`.  The `TypeError` branch for
non-`bool` input is outside the embedded domain. -/
def parse_checksum (data : Bool) : Except String Bool :=
  .ok data

/-- The `ZstdCodec` dataclass fields (`level`, `checksum`); dataclass equality
compares exactly these two fields. -/
structure ZstdCodec where
  level : Int
  checksum : Bool
deriving DecidableEq, Repr

/-- Embeds `ZstdCodec.__init__`: parses the level and checksum and stores the
parsed values; any parse failure aborts construction. -/
def ZstdCodec.init (level : Int) (checksum : Bool) : Except String ZstdCodec := do
  let level_parsed ← parse_zstd_level level
  let checksum_parsed ← parse_checksum checksum
  .ok ⟨level_parsed, checksum_parsed⟩

/-- Embeds the class attribute `ZstdCodec.is_fixed_size = True` exactly as the
source sets it. -/
def ZstdCodec.isFixedSize : Bool := true

/-- The serialized shape `{"name": ..., "configuration": {"level": ..., "checksum": ...}}`
produced by `ZstdCodec.to_dict`, restricted to the keys the zstd codec uses. -/
structure ZstdCodecDict where
  name : String
  level : Int
  checksum : Bool
deriving DecidableEq, Repr

/-- Embeds `ZstdCodec.to_dict`. -/
def ZstdCodec.toDict (c : ZstdCodec) : ZstdCodecDict :=
  ⟨"zstd", c.level, c.checksum⟩

/-- Modelled from the spec: `parse_named_configuration` lives in
`zarr.v3.common`, which is not part of the sources; per the spec's codec
configuration JSON shape (`{"name": <codec-name-string>, "configuration": {...}}`),
it checks the `name` against the codec's expected name and returns the
`configuration` mapping. -/
def parse_named_configuration (data : ZstdCodecDict) (expected_name : String) :
    Except String (Int × Bool) :=
  if data.name = expected_name then
    .ok (data.level, data.checksum)
  else
    .error "Expected a different codec name."

/-- Embeds `ZstdCodec.from_dict`: parses the named configuration with expected
name `"zstd"` and passes the configuration keys to the constructor. -/
def ZstdCodec.fromDict (data : ZstdCodecDict) : Except String ZstdCodec := do
  let configuration_parsed ← parse_named_configuration data "zstd"
  ZstdCodec.init configuration_parsed.1 configuration_parsed.2

/-! ## Byte-range resolution (`src/zarr/storage/_utils.py`, `_normalize_byte_range_index`) -/

/-- The byte-range request shapes accepted by `_normalize_byte_range_index`:
a `(start, end)` tuple, a `{"offset": int}` mapping, or a `{"suffix": int}`
mapping; `none` at the call site stands for Python `None` (the full object). -/
inductive ByteRangeRequest where
  | tuple (start stop : Int)
  | offsetDict (offset : Int)
  | suffixDict (suffix : Int)
deriving DecidableEq, Repr

/-- Embeds `_normalize_byte_range_index` over an object of length `dataLen`.
In the `"offset"` branch the Python function assigns `length` but never
assigns `start`, so the final `return (start, length)` raises
`UnboundLocalError`; the embedding returns `none` for that crash. -/
def normalize_byte_range_index (dataLen : Nat) (byte_range : Option ByteRangeRequest) :
    Option (Int × Int) :=
  match byte_range with
  | none => some (0, (dataLen : Int))
  | some (.tuple start stop) => some (start, stop - start)
  | some (.offsetDict _) => none
  | some (.suffixDict suffix) =>
      some ((dataLen : Int) - suffix, (dataLen : Int) - ((dataLen : Int) - suffix))

/-! ## Path normalization (`src/zarr/storage/_utils.py`, `normalize_path`) -/

/-- Embeds `result.replace("\\", "/")`: every backslash becomes a forward
slash. -/
def replace_backslashes (l : List Char) : List Char :=
  l.map fun c => if c = '\\' then '/' else c

/-- Embeds `result.strip("/")`: removes every leading and every trailing
slash. -/
def strip_slashes (l : List Char) : List Char :=
  (((l.dropWhile fun c => c = '/').reverse).dropWhile fun c => c = '/').reverse

/-- Embeds the substitution of the regex `//+` by `/`: every run of two or
more consecutive slashes collapses to a single slash. -/
def collapse_slashes : List Char → List Char
  | [] => []
  | [c] => [c]
  | c1 :: c2 :: rest =>
      if c1 = '/' ∧ c2 = '/' then collapse_slashes (c2 :: rest)
      else c1 :: collapse_slashes (c2 :: rest)

/-- A path segment equal to `"."` or `".."`, the segments `normalize_path`
rejects. -/
def is_dot_segment (s : List Char) : Bool :=
  s == ['.'] || s == ['.', '.']

/-- The string pipeline of `normalize_path`: backslash conversion, then
leading/trailing slash stripping, then repeated-slash collapsing. -/
def normalize_result (path : List Char) : List Char :=
  collapse_slashes (strip_slashes (replace_backslashes path))

/-- Embeds `normalize_path` on its string branch; the `None`, `bytes` and
`pathlib.Path` branches each turn their input into a string and run this same
pipeline, and the pipeline's output is a string, so string inputs cover every
repeated application.  Raising `ValueError` on a `.`/`..` segment is modelled
as `none`. -/
def normalize_path (path : List Char) : Option (List Char) :=
  if ((normalize_result path).splitOn '/').any is_dot_segment then none
  else some (normalize_result path)

/-! ## The obstore backend model (`src/zarr/storage/object_store.py`) -/

/-- The backend exception kinds relevant to the adapter: the three classes in
`ALLOWED_EXCEPTIONS` (`FileNotFoundError`, `IsADirectoryError`,
`NotADirectoryError`) plus `other` standing for every other backend failure. -/
inductive ObsError where
  | fileNotFound
  | isADirectory
  | notADirectory
  | other
deriving DecidableEq, Repr

/-- Embeds membership in `ALLOWED_EXCEPTIONS`. -/
def allowedException : ObsError → Bool
  | .fileNotFound => true
  | .isADirectory => true
  | .notADirectory => true
  | .other => false

/-- Bytes are modelled as lists of naturals. -/
abbrev Bytes := List Nat

/-- A model of an `obstore` backend: each key either holds a payload or makes
the backend signal a particular error (a missing key signals
`FileNotFoundError`, a directory-shaped key `IsADirectoryError`, and so on). -/
def ObsStore := String → Except ObsError Bytes

/-- Models `obstore.get_async` without a range option: the full payload, or the
backend's error for that key. -/
def obsGet (store : ObsStore) (path : String) : Except ObsError Bytes :=
  store path

/-- Models `obstore.get_range_async`: the bytes of the half-open interval
`[start, stop)` of the payload. -/
def obsGetRange (store : ObsStore) (path : String) (start stop : Nat) :
    Except ObsError Bytes :=
  (store path).map fun data => (data.take stop).drop start

/-- The `{"offset": ...}` / `{"suffix": ...}` range options passed to
`obstore.get_async`. -/
inductive ObsRange where
  | offset (amount : Nat)
  | suffix (amount : Nat)
deriving DecidableEq, Repr

/-- Models `obstore.get_async` with a range option: the payload from `offset`
to the end, or the last `suffix` bytes. -/
def obsGetWithOption (store : ObsStore) (path : String) (range : ObsRange) :
    Except ObsError Bytes :=
  (store path).map fun data =>
    match range with
    | .offset amount => data.drop amount
    | .suffix amount => data.drop (data.length - amount)

/-- Models `obstore.get_ranges_async`: one ranged read per `(start, end)` pair
against the same path, all succeeding or the call failing with the backend's
error. -/
def obsGetRanges (store : ObsStore) (path : String) (starts stops : List Nat) :
    Except ObsError (List Bytes) :=
  (starts.zip stops).mapM fun p => obsGetRange store path p.1 p.2

/-- Models `obstore.head_async`: succeeds exactly when the backend lookup
succeeds, and signals the same error otherwise. -/
def obsHead (store : ObsStore) (path : String) : Except ObsError Unit :=
  (store path).map fun _ => ()

/-- The `ByteRequest` variants of the store contract: `RangeByteRequest`,
`OffsetByteRequest`, `SuffixByteRequest`; `none` at the use sites stands for
Python `None` (read the whole object). -/
inductive ByteRequest where
  | range (start stop : Nat)
  | offset (amount : Nat)
  | suffix (amount : Nat)
deriving DecidableEq, Repr

/-- Embeds `ObjectStore.get`: dispatches on the `ByteRequest` variant to the
matching obstore primitive, converts any exception in `ALLOWED_EXCEPTIONS`
to `None`, and propagates every other failure.  A returned buffer is the raw
bytes (the buffer prototype is modelled as the identity on bytes). -/
def ObjectStore.get (store : ObsStore) (key : String)
    (byte_range : Option ByteRequest) : Except ObsError (Option Bytes) :=
  let attempt : Except ObsError Bytes :=
    match byte_range with
    | none => obsGet store key
    | some (.range start stop) => obsGetRange store key start stop
    | some (.offset amount) => obsGetWithOption store key (.offset amount)
    | some (.suffix amount) => obsGetWithOption store key (.suffix amount)
  match attempt with
  | .ok data => .ok (some data)
  | .error e => if allowedException e then .ok none else .error e

/-- Embeds `ObjectStore.exists`: issues a head request, catches only
`FileNotFoundError` (returning `false`), returns `true` on success, and lets
every other exception propagate. -/
def ObjectStore.exists (store : ObsStore) (key : String) : Except ObsError Bool :=
  match obsHead store key with
  | .ok _ => .ok true
  | .error .fileNotFound => .ok false
  | .error e => .error e

/-! ## The partial-values batch optimizer
(`_get_partial_values`, `_make_bounded_requests`, `_make_other_request`) -/

/-- The `_BoundedRequest` record: the positional index in the original
`key_ranges` input together with the start and end byte offsets. -/
structure BoundedRequest where
  original_request_index : Nat
  start : Nat
  stop : Nat
deriving DecidableEq, Repr

/-- The `_OtherRequest` record: the positional index in the original
`key_ranges` input, the path, and the `range` option forwarded to
`obstore.get_async` (`none` for an unconditional full read). -/
structure OtherRequest where
  original_request_index : Nat
  path : String
  range : Option ObsRange
deriving DecidableEq, Repr

/-- `per_file_bounded_requests[path].append(req)` on an insertion-ordered
`defaultdict(list)`: the request joins the end of its path's group, and a path
seen for the first time opens a new group at the end. -/
def addBoundedRequest (groups : List (String × List BoundedRequest))
    (path : String) (req : BoundedRequest) : List (String × List BoundedRequest) :=
  match groups with
  | [] => [(path, [req])]
  | (p, reqs) :: rest =>
      if p = path then (p, reqs ++ [req]) :: rest
      else (p, reqs) :: addBoundedRequest rest path req

/-- The partitioning loop of `_get_partial_values` over
`enumerate(key_ranges)`, carried out from position `idx` with the accumulated
per-file bounded groups and other requests: `RangeByteRequest`s are grouped by
path, everything else is appended to the other-request list. -/
def partitionLoop (acc : List (String × List BoundedRequest) × List OtherRequest)
    (idx : Nat) :
    List (String × Option ByteRequest) →
      List (String × List BoundedRequest) × List OtherRequest
  | [] => acc
  | (path, byte_range) :: rest =>
      let acc' :=
        match byte_range with
        | none => (acc.1, acc.2 ++ [⟨idx, path, none⟩])
        | some (.range s e) => (addBoundedRequest acc.1 path ⟨idx, s, e⟩, acc.2)
        | some (.offset o) => (acc.1, acc.2 ++ [⟨idx, path, some (.offset o)⟩])
        | some (.suffix s) => (acc.1, acc.2 ++ [⟨idx, path, some (.suffix s)⟩])
      partitionLoop acc' (idx + 1) rest

/-- The full partition of `key_ranges` into per-file bounded groups and other
requests. -/
def partitionRequests (key_ranges : List (String × Option ByteRequest)) :
    List (String × List BoundedRequest) × List OtherRequest :=
  partitionLoop ([], []) 0 key_ranges

/-- Embeds `_make_bounded_requests`: one `obstore.get_ranges_async` call for
all bounded requests of a single path, zipping each request with its response
buffer and tagging it with its original index. -/
def makeBoundedRequests (store : ObsStore) (path : String)
    (requests : List BoundedRequest) : Except ObsError (List (Nat × Bytes)) :=
  match obsGetRanges store path (requests.map (·.start)) (requests.map (·.stop)) with
  | .error e => .error e
  | .ok responses =>
      .ok ((requests.zip responses).map fun p => (p.1.original_request_index, p.2))

/-- Embeds `_make_other_request`: one `obstore.get_async` call, with the
`range` option when present, returning a one-element response list. -/
def makeOtherRequest (store : ObsStore) (request : OtherRequest) :
    Except ObsError (List (Nat × Bytes)) :=
  match request.range with
  | none =>
      (obsGet store request.path).map fun b => [(request.original_request_index, b)]
  | some rng =>
      (obsGetWithOption store request.path rng).map fun b =>
        [(request.original_request_index, b)]

/-- The future list of `_get_partial_values`: one bounded-group call per path
followed by one call per other request. -/
def buildFuts (store : ObsStore)
    (parts : List (String × List BoundedRequest) × List OtherRequest) :
    List (Except ObsError (List (Nat × Bytes))) :=
  (parts.1.map fun g => makeBoundedRequests store g.1 g.2) ++
    parts.2.map fun r => makeOtherRequest store r

/-- Embeds `_get_partial_values`: partition, issue all calls, wait for all of
them (`asyncio.gather` propagates the first exception, modelled as the
`Except` sequencing of the future list), then write every response buffer into
a `None`-initialized result list at its original index.  There is no exception
handling anywhere on this path. -/
def get_partial_values (store : ObsStore)
    (key_ranges : List (String × Option ByteRequest)) :
    Except ObsError (List (Option Bytes)) :=
  match (buildFuts store (partitionRequests key_ranges)).mapM id with
  | .error e => .error e
  | .ok responses =>
      .ok (responses.flatten.foldl
        (fun buffers r => buffers.set r.1 (some r.2))
        (List.replicate key_ranges.length none))

/-- The original `ByteRequest` a stored `_OtherRequest.range` option stands
for: `none` for a full read, and the offset/suffix variants unchanged. -/
def otherToByteRequest : Option ObsRange → Option ByteRequest
  | none => none
  | some (.offset k) => some (.offset k)
  | some (.suffix k) => some (.suffix k)

/-! ## Specification predicates used by the proofs -/

/-- No two adjacent characters of the list are both slashes. -/
def NoDoubleSlash (l : List Char) : Prop :=
  List.Chain' (fun a b => ¬(a = '/' ∧ b = '/')) l

/-- Every bounded request stored in the per-file groups faithfully records its
originating `key_ranges` entry. -/
def GroupsSound (key_ranges : List (String × Option ByteRequest))
    (groups : List (String × List BoundedRequest)) : Prop :=
  ∀ g ∈ groups, ∀ r ∈ g.2,
    key_ranges[r.original_request_index]? =
      some (g.1, some (.range r.start r.stop))

/-- Every stored other-request faithfully records its originating `key_ranges`
entry. -/
def OthersSound (key_ranges : List (String × Option ByteRequest))
    (others : List OtherRequest) : Prop :=
  ∀ o ∈ others,
    key_ranges[o.original_request_index]? =
      some (o.path, otherToByteRequest o.range)

/-- Input position `i` is represented somewhere in the partition. -/
def CoversIndex
    (parts : List (String × List BoundedRequest) × List OtherRequest)
    (i : Nat) : Prop :=
  (∃ g ∈ parts.1, ∃ r ∈ g.2, r.original_request_index = i) ∨
    (∃ o ∈ parts.2, o.original_request_index = i)

/-! ## Concrete backends used to instantiate the claims -/

/-- A concrete backend probing each signal: a present key, a missing key, two
directory-shaped keys, and a key whose lookup fails with an unclassified
error. -/
def probeStore : ObsStore := fun key =>
  if key = "data" then .ok [10, 20, 30]
  else if key = "dir" then .error .isADirectory
  else if key = "notdir" then .error .notADirectory
  else if key = "boom" then .error .other
  else .error .fileNotFound

/-- A backend holding no objects at all: every key is missing. -/
def emptyStore : ObsStore := fun _ => .error .fileNotFound

/-- A backend holding a single four-byte object under the key `"a"`. -/
def smallStore : ObsStore := fun key =>
  if key = "a" then .ok [1, 2, 3, 4] else .error .fileNotFound

end Zarr

namespace Zarr

/-! ## Claims about the zstd codec and byte-range resolution -/

/-- C3: `Full`, `Bounded` and `SuffixLength` resolve to the specified
`(start, length)` pairs, but the `OffsetFromStart` branch of
`_normalize_byte_range_index` crashes (`start` is never assigned before
`return (start, length)`), instead of returning `(offset, L - offset)` as the
spec requires: evaluated at object length 5 and offset 1 the code yields no
pair at all. -/
theorem byte_range_offset_branch_crashes :
    (∀ L : Nat, normalize_byte_range_index L none = some (0, (L : Int))) ∧
    (∀ (L : Nat) (s e : Int),
      normalize_byte_range_index L (some (.tuple s e)) = some (s, e - s)) ∧
    (∀ (L : Nat) (s : Int),
      normalize_byte_range_index L (some (.suffixDict s)) = some ((L : Int) - s, s)) ∧
    normalize_byte_range_index 5 (some (.offsetDict 1)) = none := by
  refine ⟨fun L => rfl, fun L s e => rfl, fun L s => ?_, rfl⟩
  simp [normalize_byte_range_index]

/-- C6: for every valid codec configuration (integer level in the valid range
0–22, boolean checksum), serializing with `to_dict` and re-parsing with
`from_dict` reconstructs an equal codec. -/
theorem zstd_from_dict_to_dict_roundtrip (c : ZstdCodec)
    (h0 : 0 ≤ c.level) (h22 : c.level ≤ 22) :
    ZstdCodec.fromDict (ZstdCodec.toDict c) = .ok c := by
  have hlt : ¬ c.level ≥ 23 := by omega
  simp [ZstdCodec.fromDict, ZstdCodec.toDict, parse_named_configuration,
    ZstdCodec.init, parse_zstd_level, parse_checksum, hlt, Bind.bind, Except.bind]

/-- Witness for C6 at the concrete codec `level = 3`, `checksum = true`. -/
theorem zstd_from_dict_to_dict_roundtrip_witness :
    ZstdCodec.fromDict (ZstdCodec.toDict ⟨3, true⟩) = .ok ⟨3, true⟩ :=
  zstd_from_dict_to_dict_roundtrip ⟨3, true⟩ (by decide) (by decide)

/-- C7: constructing the zstd codec with any integer level `≥ 23` fails, and
constructing it with any integer level in `0..22` succeeds. -/
theorem zstd_level_bounds (level : Int) (checksum : Bool) :
    (23 ≤ level → ZstdCodec.init level checksum =
      .error "Value must be less than or equal to 22.") ∧
    (0 ≤ level → level ≤ 22 → ZstdCodec.init level checksum = .ok ⟨level, checksum⟩) := by
  constructor
  · intro h
    have : level ≥ 23 := h
    simp [ZstdCodec.init, parse_zstd_level, this, Bind.bind, Except.bind]
  · intro h0 h22
    have : ¬ level ≥ 23 := by omega
    simp [ZstdCodec.init, parse_zstd_level, parse_checksum, this, Bind.bind, Except.bind]

/-- Witness for C7 at the boundary levels 23 (fails) and 22 (succeeds). -/
theorem zstd_level_bounds_witness :
    ZstdCodec.init 23 false = .error "Value must be less than or equal to 22." ∧
    ZstdCodec.init 22 false = .ok ⟨22, false⟩ :=
  ⟨(zstd_level_bounds 23 false).1 (by decide),
   (zstd_level_bounds 22 false).2 (by decide) (by decide)⟩

/-- C9: level validation enforces only the upper bound: every integer level
strictly below 23, negative levels included, is accepted unchanged by
construction. -/
theorem zstd_level_no_lower_bound (level : Int) (checksum : Bool)
    (h : level < 23) :
    ZstdCodec.init level checksum = .ok ⟨level, checksum⟩ := by
  have : ¬ level ≥ 23 := by omega
  simp [ZstdCodec.init, parse_zstd_level, parse_checksum, this, Bind.bind, Except.bind]

/-- Witness for C9 at the negative level `-7`. -/
theorem zstd_level_no_lower_bound_witness :
    ZstdCodec.init (-7) true = .ok ⟨-7, true⟩ :=
  zstd_level_no_lower_bound (-7) true (by decide)

/-! ## Facts about the path-normalization pipeline -/

theorem mem_of_mem_dropWhile {p : Char → Bool} {l : List Char} {c : Char}
    (h : c ∈ l.dropWhile p) : c ∈ l := by
  induction l with
  | nil => simp at h
  | cons a t ih =>
      rw [List.dropWhile_cons] at h
      split at h
      · exact List.mem_cons_of_mem a (ih h)
      · exact h

theorem mem_of_mem_strip_slashes {l : List Char} {c : Char}
    (h : c ∈ strip_slashes l) : c ∈ l := by
  unfold strip_slashes at h
  rw [List.mem_reverse] at h
  have h1 := mem_of_mem_dropWhile h
  rw [List.mem_reverse] at h1
  exact mem_of_mem_dropWhile h1

theorem mem_of_mem_collapse_slashes {l : List Char} {c : Char}
    (h : c ∈ collapse_slashes l) : c ∈ l := by
  induction l with
  | nil => simp [collapse_slashes] at h
  | cons c1 t ih =>
      cases t with
      | nil => simpa [collapse_slashes] using h
      | cons c2 rest =>
          simp only [collapse_slashes] at h
          split at h
          · exact List.mem_cons_of_mem c1 (ih h)
          · rcases List.mem_cons.mp h with h | h
            · exact h ▸ List.mem_cons_self c1 (c2 :: rest)
            · exact List.mem_cons_of_mem c1 (ih h)

theorem replace_backslashes_no_backslash {l : List Char} {c : Char}
    (h : c ∈ replace_backslashes l) : c ≠ '\\' := by
  unfold replace_backslashes at h
  obtain ⟨a, -, rfl⟩ := List.mem_map.mp h
  split
  · decide
  · assumption

theorem replace_backslashes_id {l : List Char} (h : ∀ c ∈ l, c ≠ '\\') :
    replace_backslashes l = l := by
  induction l with
  | nil => rfl
  | cons a t ih =>
      unfold replace_backslashes at ih ⊢
      rw [List.map_cons, if_neg (h a (List.mem_cons_self a t)),
        ih fun c hc => h c (List.mem_cons_of_mem a hc)]

theorem head?_dropWhile_not {p : Char → Bool} {l : List Char} {c : Char}
    (h : (l.dropWhile p).head? = some c) : p c = false := by
  induction l with
  | nil => simp at h
  | cons a t ih =>
      rw [List.dropWhile_cons] at h
      split at h
      · exact ih h
      · next hpa =>
          simp only [List.head?_cons, Option.some.injEq] at h
          subst h
          simpa using hpa

theorem getLast?_dropWhile {p : Char → Bool} {l : List Char}
    (h : l.dropWhile p ≠ []) : (l.dropWhile p).getLast? = l.getLast? := by
  induction l with
  | nil => simp at h
  | cons a t ih =>
      rw [List.dropWhile_cons] at h ⊢
      split
      · next hpa =>
          rw [if_pos hpa] at h
          have ht : t ≠ [] := by
            intro he
            rw [he] at h
            exact h rfl
          cases t with
          | nil => exact absurd rfl ht
          | cons b t2 => rw [ih h, List.getLast?_cons_cons]
      · rfl

theorem dropWhile_eq_self_of_head {p : Char → Bool} {l : List Char}
    (h : ∀ c, l.head? = some c → p c = false) : l.dropWhile p = l := by
  cases l with
  | nil => rfl
  | cons a t => rw [List.dropWhile_cons, h a rfl]; simp

theorem strip_slashes_head? {l : List Char} {c : Char}
    (h : (strip_slashes l).head? = some c) : c ≠ '/' := by
  unfold strip_slashes at h
  rw [List.head?_reverse] at h
  by_cases hB : ((l.dropWhile fun c => c = '/').reverse.dropWhile fun c => c = '/') = []
  · rw [hB] at h
    simp at h
  · rw [getLast?_dropWhile hB, List.getLast?_reverse] at h
    have := head?_dropWhile_not h
    simpa using this

theorem strip_slashes_getLast? {l : List Char} {c : Char}
    (h : (strip_slashes l).getLast? = some c) : c ≠ '/' := by
  unfold strip_slashes at h
  rw [List.getLast?_reverse] at h
  have := head?_dropWhile_not h
  simpa using this

theorem strip_slashes_id {l : List Char}
    (hh : ∀ c, l.head? = some c → c ≠ '/')
    (hg : ∀ c, l.getLast? = some c → c ≠ '/') :
    strip_slashes l = l := by
  have hinner : (l.dropWhile fun c => c = '/') = l :=
    dropWhile_eq_self_of_head fun c hc => by simpa using hh c hc
  have houter : (l.reverse.dropWhile fun c => c = '/') = l.reverse :=
    dropWhile_eq_self_of_head fun c hc => by
      rw [List.head?_reverse] at hc
      simpa using hg c hc
  unfold strip_slashes
  rw [hinner, houter, List.reverse_reverse]

theorem collapse_slashes_head? (l : List Char) :
    (collapse_slashes l).head? = l.head? := by
  induction l with
  | nil => rfl
  | cons c1 t ih =>
      cases t with
      | nil => rfl
      | cons c2 rest =>
          simp only [collapse_slashes]
          split
          · next hc => rw [ih, List.head?_cons, List.head?_cons, hc.1, hc.2]
          · rfl

theorem collapse_slashes_eq_nil_iff {l : List Char} :
    collapse_slashes l = [] ↔ l = [] := by
  induction l with
  | nil => simp [collapse_slashes]
  | cons c1 t ih =>
      cases t with
      | nil => simp [collapse_slashes]
      | cons c2 rest =>
          simp only [collapse_slashes]
          split
          · simp [ih]
          · simp

theorem collapse_slashes_getLast? (l : List Char) :
    (collapse_slashes l).getLast? = l.getLast? := by
  induction l with
  | nil => rfl
  | cons c1 t ih =>
      cases t with
      | nil => rfl
      | cons c2 rest =>
          simp only [collapse_slashes]
          split
          · rw [ih, List.getLast?_cons_cons]
          · have hne : collapse_slashes (c2 :: rest) ≠ [] := by
              simp [collapse_slashes_eq_nil_iff]
            cases hx : collapse_slashes (c2 :: rest) with
            | nil => exact absurd hx hne
            | cons b bs =>
                rw [List.getLast?_cons_cons, List.getLast?_cons_cons, ← hx]
                exact ih

theorem collapse_slashes_noDoubleSlash (l : List Char) :
    NoDoubleSlash (collapse_slashes l) := by
  induction l with
  | nil => simp [NoDoubleSlash, collapse_slashes]
  | cons c1 t ih =>
      cases t with
      | nil => simp [NoDoubleSlash, collapse_slashes]
      | cons c2 rest =>
          simp only [collapse_slashes]
          split
          · exact ih
          · next hc =>
              refine List.chain'_cons'.mpr ⟨?_, ih⟩
              intro y hy
              rw [collapse_slashes_head?] at hy
              simp only [List.head?_cons, Option.mem_def, Option.some.injEq] at hy
              subst hy
              exact hc

theorem collapse_slashes_id {l : List Char} (h : NoDoubleSlash l) :
    collapse_slashes l = l := by
  induction l with
  | nil => rfl
  | cons c1 t ih =>
      cases t with
      | nil => rfl
      | cons c2 rest =>
          rw [NoDoubleSlash, List.chain'_cons] at h
          simp only [collapse_slashes]
          rw [if_neg h.1, ih h.2]

/-- The pipeline is a projection: applying it to its own output changes
nothing. -/
theorem normalize_result_fixed (path : List Char) :
    normalize_result (normalize_result path) = normalize_result path := by
  set m := strip_slashes (replace_backslashes path) with hm
  have hr : normalize_result path = collapse_slashes m := rfl
  have h1 : replace_backslashes (collapse_slashes m) = collapse_slashes m := by
    refine replace_backslashes_id fun c hc => ?_
    exact replace_backslashes_no_backslash
      (mem_of_mem_strip_slashes (mem_of_mem_collapse_slashes hc))
  have h2 : strip_slashes (collapse_slashes m) = collapse_slashes m := by
    refine strip_slashes_id (fun c hc => ?_) fun c hc => ?_
    · rw [collapse_slashes_head?] at hc
      exact strip_slashes_head? hc
    · rw [collapse_slashes_getLast?] at hc
      exact strip_slashes_getLast? hc
  have h3 : collapse_slashes (collapse_slashes m) = collapse_slashes m :=
    collapse_slashes_id (collapse_slashes_noDoubleSlash m)
  rw [hr]
  show collapse_slashes (strip_slashes (replace_backslashes (collapse_slashes m))) =
    collapse_slashes m
  rw [h1, h2, h3]

/-! ## Facts about `Except` sequencing (the `asyncio.gather` model) -/

theorem lt_of_getElem?_eq_some {α : Type} {l : List α} {k : Nat} {x : α}
    (h : l[k]? = some x) : k < l.length := by
  by_contra hk
  rw [List.getElem?_eq_none (by omega)] at h
  exact Option.noConfusion h

theorem mem_getElem? {α : Type} {l : List α} {a : α} (h : a ∈ l) :
    ∃ k : Nat, l[k]? = some a := by
  obtain ⟨k, hk, he⟩ := List.mem_iff_getElem.mp h
  exact ⟨k, by simp [List.getElem?_eq_getElem hk, he]⟩

theorem exceptMapM_ok_getElem? {ε α β : Type} {f : α → Except ε β} :
    ∀ {l : List α} {ys : List β}, l.mapM f = .ok ys →
      ys.length = l.length ∧
        ∀ (k : Nat) (x : α), l[k]? = some x →
          ∃ y : β, ys[k]? = some y ∧ f x = .ok y := by
  intro l
  induction l with
  | nil =>
      intro ys h
      simp only [List.mapM_nil, pure, Except.pure, Except.ok.injEq] at h
      subst h
      exact ⟨rfl, fun k x hx => by simp at hx⟩
  | cons a t ih =>
      intro ys h
      rw [List.mapM_cons] at h
      cases hfa : f a with
      | error e => rw [hfa] at h; simp [Bind.bind, Except.bind] at h
      | ok b =>
          rw [hfa] at h
          cases hmt : t.mapM f with
          | error e => rw [hmt] at h; simp [Bind.bind, Except.bind] at h
          | ok bs =>
              rw [hmt] at h
              simp only [Bind.bind, Except.bind, pure, Except.pure,
                Except.ok.injEq] at h
              subst h
              obtain ⟨hlen, hpt⟩ := ih hmt
              refine ⟨by simp [hlen], fun k x hx => ?_⟩
              cases k with
              | zero =>
                  simp only [List.getElem?_cons_zero, Option.some.injEq] at hx
                  subst hx
                  exact ⟨b, by simp, hfa⟩
              | succ k2 =>
                  simp only [List.getElem?_cons_succ] at hx ⊢
                  exact hpt k2 x hx

theorem exceptMapM_error_of_mem {ε α β : Type} {f : α → Except ε β}
    {l : List α} {x : α} {e : ε} (hx : x ∈ l) (hfx : f x = .error e) :
    ∃ e2, l.mapM f = .error e2 := by
  induction l with
  | nil => cases hx
  | cons a t ih =>
      rcases List.mem_cons.mp hx with rfl | hx2
      · exact ⟨e, by rw [List.mapM_cons, hfx]; rfl⟩
      · cases hfa : f a with
        | error e2 => exact ⟨e2, by rw [List.mapM_cons, hfa]; rfl⟩
        | ok b =>
            obtain ⟨e2, he2⟩ := ih hx2
            exact ⟨e2, by rw [List.mapM_cons, hfa, he2]; rfl⟩

theorem exceptMapM_ok_mem_left {ε α β : Type} {f : α → Except ε β}
    {l : List α} {ys : List β} (h : l.mapM f = .ok ys) {x : α} (hx : x ∈ l) :
    ∃ y ∈ ys, f x = .ok y := by
  obtain ⟨hlen, hpt⟩ := exceptMapM_ok_getElem? h
  obtain ⟨k, hk⟩ := mem_getElem? hx
  obtain ⟨y, hy, hfy⟩ := hpt k x hk
  exact ⟨y, List.getElem?_mem hy, hfy⟩

theorem exceptMapM_ok_mem_right {ε α β : Type} {f : α → Except ε β}
    {l : List α} {ys : List β} (h : l.mapM f = .ok ys) {y : β} (hy : y ∈ ys) :
    ∃ x ∈ l, f x = .ok y := by
  obtain ⟨hlen, hpt⟩ := exceptMapM_ok_getElem? h
  obtain ⟨k, hk⟩ := mem_getElem? hy
  have hkl : k < l.length := by
    have := lt_of_getElem?_eq_some hk
    omega
  obtain ⟨x, hx⟩ : ∃ x, l[k]? = some x :=
    ⟨l[k], List.getElem?_eq_getElem hkl⟩
  obtain ⟨y2, hy2, hfy2⟩ := hpt k x hx
  rw [hk] at hy2
  obtain rfl : y = y2 := by injection hy2
  exact ⟨x, List.getElem?_mem hx, hfy2⟩

/-! ## Facts about the request partition -/

theorem addBoundedRequest_subset {groups : List (String × List BoundedRequest)}
    {path : String} {req : BoundedRequest} :
    ∀ {g}, g ∈ addBoundedRequest groups path req → ∀ {r}, r ∈ g.2 →
      (∃ g0 ∈ groups, g0.1 = g.1 ∧ r ∈ g0.2) ∨ (g.1 = path ∧ r = req) := by
  induction groups with
  | nil =>
      intro g hg r hr
      simp only [addBoundedRequest, List.mem_singleton] at hg
      subst hg
      simp only [List.mem_singleton] at hr
      exact .inr ⟨rfl, hr⟩
  | cons g0 rest ih =>
      intro g hg r hr
      obtain ⟨p, reqs⟩ := g0
      simp only [addBoundedRequest] at hg
      split at hg
      · next hp =>
          rcases List.mem_cons.mp hg with rfl | hg2
          · rcases List.mem_append.mp hr with hr2 | hr2
            · exact .inl ⟨(p, reqs), List.mem_cons_self _ _, rfl, hr2⟩
            · simp only [List.mem_singleton] at hr2
              exact .inr ⟨hp, hr2⟩
          · exact .inl ⟨g, List.mem_cons_of_mem _ hg2, rfl, hr⟩
      · rcases List.mem_cons.mp hg with rfl | hg2
        · exact .inl ⟨(p, reqs), List.mem_cons_self _ _, rfl, hr⟩
        · rcases ih hg2 hr with ⟨g1, hg1, he1, hr1⟩ | hnew
          · exact .inl ⟨g1, List.mem_cons_of_mem _ hg1, he1, hr1⟩
          · exact .inr hnew

theorem addBoundedRequest_preserves {groups : List (String × List BoundedRequest)}
    {path : String} {req : BoundedRequest} {g0 : String × List BoundedRequest}
    {r : BoundedRequest} (hg : g0 ∈ groups) (hr : r ∈ g0.2) :
    ∃ g ∈ addBoundedRequest groups path req, r ∈ g.2 := by
  induction groups with
  | nil => cases hg
  | cons g1 rest ih =>
      obtain ⟨p, reqs⟩ := g1
      simp only [addBoundedRequest]
      split
      · rcases List.mem_cons.mp hg with rfl | hg2
        · exact ⟨(p, reqs ++ [req]), List.mem_cons_self _ _,
            List.mem_append.mpr (.inl hr)⟩
        · exact ⟨g0, List.mem_cons_of_mem _ hg2, hr⟩
      · rcases List.mem_cons.mp hg with rfl | hg2
        · exact ⟨(p, reqs), List.mem_cons_self _ _, hr⟩
        · obtain ⟨g, hgm, hrm⟩ := ih hg2
          exact ⟨g, List.mem_cons_of_mem _ hgm, hrm⟩

theorem addBoundedRequest_self (groups : List (String × List BoundedRequest))
    (path : String) (req : BoundedRequest) :
    ∃ g ∈ addBoundedRequest groups path req, req ∈ g.2 := by
  induction groups with
  | nil => exact ⟨(path, [req]), List.mem_singleton.mpr rfl, List.mem_singleton.mpr rfl⟩
  | cons g1 rest ih =>
      obtain ⟨p, reqs⟩ := g1
      simp only [addBoundedRequest]
      split
      · exact ⟨(p, reqs ++ [req]), List.mem_cons_self _ _,
          List.mem_append.mpr (.inr (List.mem_singleton.mpr rfl))⟩
      · obtain ⟨g, hgm, hrm⟩ := ih
        exact ⟨g, List.mem_cons_of_mem _ hgm, hrm⟩

theorem partitionLoop_sound (key_ranges : List (String × Option ByteRequest)) :
    ∀ (rest : List (String × Option ByteRequest))
      (acc : List (String × List BoundedRequest) × List OtherRequest) (idx : Nat),
      (∀ (j : Nat) (x : String × Option ByteRequest),
        rest[j]? = some x → key_ranges[idx + j]? = some x) →
      GroupsSound key_ranges acc.1 → OthersSound key_ranges acc.2 →
      GroupsSound key_ranges (partitionLoop acc idx rest).1 ∧
        OthersSound key_ranges (partitionLoop acc idx rest).2 := by
  intro rest
  induction rest with
  | nil => intro acc idx _ hG hO; exact ⟨hG, hO⟩
  | cons hd tl ih =>
      intro acc idx hrest hG hO
      obtain ⟨path, byte_range⟩ := hd
      have hx0 : key_ranges[idx]? = some (path, byte_range) := by
        have := hrest 0 (path, byte_range) (by simp)
        simpa using this
      have hrest2 : ∀ (j : Nat) (x : String × Option ByteRequest),
          tl[j]? = some x → key_ranges[idx + 1 + j]? = some x := by
        intro j x hj
        have := hrest (j + 1) x (by simpa using hj)
        rwa [show idx + (j + 1) = idx + 1 + j by omega] at this
      cases byte_range with
      | none =>
          refine ih _ (idx + 1) hrest2 hG fun o ho => ?_
          rcases List.mem_append.mp ho with ho2 | ho2
          · exact hO o ho2
          · simp only [List.mem_singleton] at ho2
            subst ho2
            exact hx0
      | some br =>
          cases br with
          | range s e =>
              refine ih _ (idx + 1) hrest2 (fun g hg r hr => ?_) hO
              rcases addBoundedRequest_subset hg hr with ⟨g0, hg0, he0, hr0⟩ | ⟨hgp, hre⟩
              · rw [← he0]
                exact hG g0 hg0 r hr0
              · subst hre
                rw [hgp]
                exact hx0
          | offset o =>
              refine ih _ (idx + 1) hrest2 hG fun o2 ho => ?_
              rcases List.mem_append.mp ho with ho2 | ho2
              · exact hO o2 ho2
              · simp only [List.mem_singleton] at ho2
                subst ho2
                exact hx0
          | suffix s =>
              refine ih _ (idx + 1) hrest2 hG fun o2 ho => ?_
              rcases List.mem_append.mp ho with ho2 | ho2
              · exact hO o2 ho2
              · simp only [List.mem_singleton] at ho2
                subst ho2
                exact hx0

theorem partitionLoop_complete :
    ∀ (rest : List (String × Option ByteRequest))
      (acc : List (String × List BoundedRequest) × List OtherRequest) (idx : Nat),
      (∀ i < idx, CoversIndex acc i) →
      ∀ i < idx + rest.length, CoversIndex (partitionLoop acc idx rest) i := by
  intro rest
  induction rest with
  | nil => intro acc idx hacc i hi; exact hacc i (by simpa using hi)
  | cons hd tl ih =>
      intro acc idx hacc i hi
      obtain ⟨path, byte_range⟩ := hd
      have hstep : ∀ acc2, (∀ j < idx, CoversIndex acc2 j) →
          CoversIndex acc2 idx →
          ∀ i2 < idx + 1 + tl.length,
            CoversIndex (partitionLoop acc2 (idx + 1) tl) i2 := by
        intro acc2 hold hnew i2 hi2
        refine ih acc2 (idx + 1) (fun j hj => ?_) i2 hi2
        rcases Nat.lt_succ_iff_lt_or_eq.mp hj with hj2 | rfl
        · exact hold j hj2
        · exact hnew
      have hi2 : i < idx + 1 + tl.length := by
        simp only [List.length_cons] at hi
        omega
      cases byte_range with
      | none =>
          refine hstep _ (fun j hj => ?_) ?_ i hi2
          · rcases hacc j hj with hc | ⟨o, ho, hoe⟩
            · exact .inl hc
            · exact .inr ⟨o, List.mem_append.mpr (.inl ho), hoe⟩
          · exact .inr ⟨⟨idx, path, none⟩,
              List.mem_append.mpr (.inr (List.mem_singleton.mpr rfl)), rfl⟩
      | some br =>
          cases br with
          | range s e =>
              refine hstep _ (fun j hj => ?_) ?_ i hi2
              · rcases hacc j hj with ⟨g, hg, r, hr, hre⟩ | hc
                · obtain ⟨g2, hg2, hr2⟩ := addBoundedRequest_preserves hg hr
                  exact .inl ⟨g2, hg2, r, hr2, hre⟩
                · exact .inr hc
              · obtain ⟨g, hg, hr⟩ := addBoundedRequest_self acc.1 path ⟨idx, s, e⟩
                exact .inl ⟨g, hg, ⟨idx, s, e⟩, hr, rfl⟩
          | offset o =>
              refine hstep _ (fun j hj => ?_) ?_ i hi2
              · rcases hacc j hj with hc | ⟨o2, ho, hoe⟩
                · exact .inl hc
                · exact .inr ⟨o2, List.mem_append.mpr (.inl ho), hoe⟩
              · exact .inr ⟨⟨idx, path, some (.offset o)⟩,
                  List.mem_append.mpr (.inr (List.mem_singleton.mpr rfl)), rfl⟩
          | suffix s =>
              refine hstep _ (fun j hj => ?_) ?_ i hi2
              · rcases hacc j hj with hc | ⟨o2, ho, hoe⟩
                · exact .inl hc
                · exact .inr ⟨o2, List.mem_append.mpr (.inl ho), hoe⟩
              · exact .inr ⟨⟨idx, path, some (.suffix s)⟩,
                  List.mem_append.mpr (.inr (List.mem_singleton.mpr rfl)), rfl⟩

theorem partitionRequests_sound (key_ranges : List (String × Option ByteRequest)) :
    GroupsSound key_ranges (partitionRequests key_ranges).1 ∧
      OthersSound key_ranges (partitionRequests key_ranges).2 := by
  refine partitionLoop_sound key_ranges key_ranges ([], []) 0
    (fun j x hj => by simpa using hj) (fun g hg => ?_) (fun o ho => ?_)
  · cases hg
  · cases ho

theorem partitionRequests_complete (key_ranges : List (String × Option ByteRequest))
    (i : Nat) (hi : i < key_ranges.length) :
    CoversIndex (partitionRequests key_ranges) i := by
  refine partitionLoop_complete key_ranges ([], []) 0 (fun j hj => absurd hj (by omega))
    i (by omega)

/-! ## Facts about the per-file and per-request calls -/

theorem zip_getElem? {α β : Type} {l1 : List α} {l2 : List β} {k : Nat}
    {x : α} {y : β} (h1 : l1[k]? = some x) (h2 : l2[k]? = some y) :
    (l1.zip l2)[k]? = some (x, y) :=
  List.getElem?_zip_eq_some.mpr ⟨h1, h2⟩

theorem pairs_getElem? {reqs : List BoundedRequest} {k : Nat} {r : BoundedRequest}
    (hk : reqs[k]? = some r) :
    ((reqs.map (·.start)).zip (reqs.map (·.stop)))[k]? = some (r.start, r.stop) := by
  refine zip_getElem? ?_ ?_ <;> simp [List.getElem?_map, hk]

theorem makeBoundedRequests_ok {store : ObsStore} {path : String}
    {reqs : List BoundedRequest} {resp : List (Nat × Bytes)}
    (h : makeBoundedRequests store path reqs = .ok resp) :
    resp.length = reqs.length ∧
      ∀ (k : Nat) (r : BoundedRequest), reqs[k]? = some r →
        ∃ b, resp[k]? = some (r.original_request_index, b) ∧
          obsGetRange store path r.start r.stop = .ok b := by
  unfold makeBoundedRequests at h
  cases hm : obsGetRanges store path (reqs.map (·.start)) (reqs.map (·.stop)) with
  | error e => rw [hm] at h; exact absurd h (by simp)
  | ok bufs =>
      rw [hm] at h
      simp only [Except.ok.injEq] at h
      subst h
      unfold obsGetRanges at hm
      obtain ⟨hlen, hpt⟩ := exceptMapM_ok_getElem? hm
      have hbl : bufs.length = reqs.length := by
        simpa using hlen
      refine ⟨by simp [hbl], fun k r hk => ?_⟩
      obtain ⟨b, hb, hgb⟩ := hpt k (r.start, r.stop) (pairs_getElem? hk)
      refine ⟨b, ?_, hgb⟩
      rw [List.getElem?_map, zip_getElem? hk hb]
      rfl

theorem makeBoundedRequests_error {store : ObsStore} {path : String}
    {reqs : List BoundedRequest} {r : BoundedRequest} (hr : r ∈ reqs)
    {e : ObsError} (he : store path = .error e) :
    ∃ e2, makeBoundedRequests store path reqs = .error e2 := by
  obtain ⟨k, hk⟩ := mem_getElem? hr
  have hmem := List.getElem?_mem (pairs_getElem? hk)
  have hrng : obsGetRange store path r.start r.stop = .error e := by
    simp [obsGetRange, he, Except.map]
  obtain ⟨e2, he2⟩ :=
    @exceptMapM_error_of_mem ObsError (Nat × Nat) Bytes
      (fun p => obsGetRange store path p.1 p.2) _ _ _ hmem hrng
  refine ⟨e2, ?_⟩
  unfold makeBoundedRequests obsGetRanges
  rw [he2]

theorem makeOtherRequest_ok {store : ObsStore} {req : OtherRequest}
    {resp : List (Nat × Bytes)} (h : makeOtherRequest store req = .ok resp) :
    ∃ b, resp = [(req.original_request_index, b)] ∧
      ObjectStore.get store req.path (otherToByteRequest req.range) = .ok (some b) := by
  obtain ⟨i, path, rng⟩ := req
  simp only [makeOtherRequest] at h
  cases rng with
  | none =>
      cases hs : store path with
      | error e =>
          unfold obsGet at h
          rw [hs] at h
          simp [Except.map] at h
      | ok data =>
          unfold obsGet at h
          rw [hs] at h
          simp only [Except.map, Except.ok.injEq] at h
          exact ⟨data, h.symm, by simp [ObjectStore.get, otherToByteRequest, obsGet, hs]⟩
  | some r0 =>
      cases r0 with
      | offset amount =>
          cases hs : store path with
          | error e =>
              unfold obsGetWithOption at h
              rw [hs] at h
              simp [Except.map] at h
          | ok data =>
              unfold obsGetWithOption at h
              rw [hs] at h
              simp only [Except.map, Except.ok.injEq] at h
              exact ⟨data.drop amount, h.symm,
                by simp [ObjectStore.get, otherToByteRequest, obsGetWithOption, hs,
                  Except.map]⟩
      | suffix amount =>
          cases hs : store path with
          | error e =>
              unfold obsGetWithOption at h
              rw [hs] at h
              simp [Except.map] at h
          | ok data =>
              unfold obsGetWithOption at h
              rw [hs] at h
              simp only [Except.map, Except.ok.injEq] at h
              exact ⟨data.drop (data.length - amount), h.symm,
                by simp [ObjectStore.get, otherToByteRequest, obsGetWithOption, hs,
                  Except.map]⟩

theorem makeOtherRequest_error {store : ObsStore} {req : OtherRequest} {e : ObsError}
    (he : store req.path = .error e) : makeOtherRequest store req = .error e := by
  obtain ⟨i, path, rng⟩ := req
  simp only at he
  cases rng with
  | none => simp [makeOtherRequest, obsGet, he, Except.map]
  | some r0 => cases r0 <;> simp [makeOtherRequest, obsGetWithOption, he, Except.map]

theorem get_of_range_ok {store : ObsStore} {path : String} {s e : Nat} {b : Bytes}
    (h : obsGetRange store path s e = .ok b) :
    ObjectStore.get store path (some (.range s e)) = .ok (some b) := by
  simp [ObjectStore.get, h]

/-! ## Facts about the reassembly fold -/

theorem foldl_set_length :
    ∀ (rs : List (Nat × Bytes)) (init : List (Option Bytes)),
      (rs.foldl (fun buffers r => buffers.set r.1 (some r.2)) init).length =
        init.length := by
  intro rs
  induction rs with
  | nil => intro init; rfl
  | cons p t ih => intro init; rw [List.foldl_cons, ih, List.length_set]

theorem foldl_set_getElem? :
    ∀ (rs : List (Nat × Bytes)) (init : List (Option Bytes)) (i : Nat) (v : Bytes),
      i < init.length →
      (∀ p ∈ rs, p.1 = i → p.2 = v) →
      ((∃ p ∈ rs, p.1 = i) ∨ init[i]? = some (some v)) →
      (rs.foldl (fun buffers r => buffers.set r.1 (some r.2)) init)[i]? =
        some (some v) := by
  intro rs
  induction rs with
  | nil =>
      rintro init i v hi hall (⟨p, hp, -⟩ | hinit)
      · cases hp
      · simpa using hinit
  | cons p t ih =>
      intro init i v hi hall hsome
      rw [List.foldl_cons]
      refine ih (init.set p.1 (some p.2)) i v (by rw [List.length_set]; exact hi)
        (fun q hq hq1 => hall q (List.mem_cons_of_mem p hq) hq1) ?_
      by_cases hpi : p.1 = i
      · right
        have hp2 : p.2 = v := hall p (List.mem_cons_self _ _) hpi
        rw [hpi, hp2]
        exact List.getElem?_set_self hi
      · rcases hsome with ⟨q, hq, hq1⟩ | hinit
        · rcases List.mem_cons.mp hq with rfl | hq2
          · exact absurd hq1 hpi
          · exact .inl ⟨q, hq2, hq1⟩
        · right
          rw [List.getElem?_set_ne hpi]
          exact hinit

/-! ## Claims about path normalization -/

/-- C4: normalization is idempotent: whenever `normalize_path` accepts an input
and produces a key, running `normalize_path` on that key returns it
unchanged. -/
theorem normalize_path_idempotent (path result : List Char)
    (h : normalize_path path = some result) :
    normalize_path result = some result := by
  unfold normalize_path at h
  split at h
  · exact absurd h (by simp)
  · next hcond =>
      simp only [Option.some.injEq] at h
      subst h
      unfold normalize_path
      rw [normalize_result_fixed]
      exact if_neg hcond

/-- Witness for C4: the input `"a\\b//c/"` normalizes to `"a/b/c"`, which
normalizes to itself. -/
theorem normalize_path_idempotent_witness :
    normalize_path ['a', '/', 'b', '/', 'c'] = some ['a', '/', 'b', '/', 'c'] :=
  normalize_path_idempotent ['a', '\\', 'b', '/', '/', 'c', '/']
    ['a', '/', 'b', '/', 'c'] (by decide)

/-- C5: whenever the path, after backslash conversion, slash stripping and
slash collapsing, contains a segment equal to `.` or `..` in any position,
`normalize_path` fails (raises `ValueError`, modelled as `none`) instead of
resolving or accepting the path. -/
theorem normalize_path_rejects_dot_segments (path : List Char)
    (h : ((normalize_result path).splitOn '/').any is_dot_segment = true) :
    normalize_path path = none := by
  unfold normalize_path
  exact if_pos h

/-- Witness for C5 at the concrete path `"a/../b"`. -/
theorem normalize_path_rejects_dot_segments_witness :
    normalize_path ['a', '/', '.', '.', '/', 'b'] = none :=
  normalize_path_rejects_dot_segments ['a', '/', '.', '.', '/', 'b'] (by decide)

/-! ## Claims about `ObjectStore.get` and `ObjectStore.exists` -/

/-- C2: for every key and range, whenever the backend signals one of the widened
not-found exceptions (`FileNotFoundError`, `IsADirectoryError`,
`NotADirectoryError`), `get` returns `None` rather than raising, and any other
backend failure propagates to the caller. -/
theorem get_widens_not_found_to_none (store : ObsStore) (key : String)
    (byte_range : Option ByteRequest) (e : ObsError) (h : store key = .error e) :
    (allowedException e = true → ObjectStore.get store key byte_range = .ok none) ∧
    (allowedException e = false → ObjectStore.get store key byte_range = .error e) := by
  constructor <;> intro ha <;>
    cases byte_range with
    | none =>
        simp [ObjectStore.get, obsGet, h, ha]
    | some br =>
        cases br <;>
          simp [ObjectStore.get, obsGetRange, obsGetWithOption, h, Except.map, ha]

/-- Witness for C2: on the concrete backend, a missing key and a
directory-shaped key yield `None` from `get`, while an unclassified backend
failure propagates. -/
theorem get_widens_not_found_to_none_witness :
    ObjectStore.get probeStore "absent" none = .ok none ∧
    ObjectStore.get probeStore "dir" (some (.range 0 2)) = .ok none ∧
    ObjectStore.get probeStore "boom" none = .error .other :=
  ⟨(get_widens_not_found_to_none probeStore "absent" none .fileNotFound rfl).1 rfl,
   (get_widens_not_found_to_none probeStore "dir" (some (.range 0 2)) .isADirectory
      rfl).1 rfl,
   (get_widens_not_found_to_none probeStore "boom" none .other rfl).2 rfl⟩

/-- C10: `exists` treats only the plain not-found signal as absence and an
existing key as presence; unlike `get`, it does not widen the
`IsADirectoryError` / `NotADirectoryError` signals, which propagate as errors
from `exists` at the same keys where `get` returns `None`. -/
theorem exists_narrower_than_get (store : ObsStore) (key : String) :
    (store key = .error .fileNotFound → ObjectStore.exists store key = .ok false) ∧
    (∀ data : Bytes, store key = .ok data → ObjectStore.exists store key = .ok true) ∧
    (store key = .error .isADirectory →
      ObjectStore.exists store key = .error .isADirectory ∧
      ObjectStore.get store key none = .ok none) ∧
    (store key = .error .notADirectory →
      ObjectStore.exists store key = .error .notADirectory ∧
      ObjectStore.get store key none = .ok none) := by
  refine ⟨fun h => ?_, fun data h => ?_, fun h => ⟨?_, ?_⟩, fun h => ⟨?_, ?_⟩⟩ <;>
    simp [ObjectStore.exists, ObjectStore.get, obsHead, obsGet, h, Except.map,
      allowedException]

/-- Witness for C10 on the concrete backend: absence for the missing key,
presence for the stored key, and propagated directory signals from `exists`
where `get` yields `None`. -/
theorem exists_narrower_than_get_witness :
    ObjectStore.exists probeStore "absent" = .ok false ∧
    ObjectStore.exists probeStore "data" = .ok true ∧
    (ObjectStore.exists probeStore "dir" = .error .isADirectory ∧
      ObjectStore.get probeStore "dir" none = .ok none) ∧
    (ObjectStore.exists probeStore "notdir" = .error .notADirectory ∧
      ObjectStore.get probeStore "notdir" none = .ok none) :=
  ⟨(exists_narrower_than_get probeStore "absent").1 rfl,
   (exists_narrower_than_get probeStore "data").2.1 [10, 20, 30] rfl,
   (exists_narrower_than_get probeStore "dir").2.2.1 rfl,
   (exists_narrower_than_get probeStore "notdir").2.2.2 rfl⟩

/-- C8: the source sets the class attribute `ZstdCodec.is_fixed_size = True`,
contradicting the spec's contract that the flag is false for a general
compression codec (and the class's own `compute_encoded_size`, which refuses
to predict the encoded size). -/
theorem zstd_is_fixed_size_is_true : ZstdCodec.isFixedSize = true := rfl

/-! ## Claims about `get_partial_values` -/

/-- C1 fails on the code: `_get_partial_values` wraps no call in the
`ALLOWED_EXCEPTIONS` handler, so a single missing key makes the whole batch
raise `FileNotFoundError` — at the concrete one-request input `[("a", None)]`
over an empty backend the batch errors, while the sequential `get` the claim
compares against returns `None` for that same pair. -/
theorem get_partial_values_missing_key_counterexample :
    get_partial_values emptyStore [("a", none)] = .error .fileNotFound ∧
    ObjectStore.get emptyStore "a" none = .ok none ∧
    get_partial_values emptyStore [("a", none)] ≠ .ok [none] := by
  refine ⟨rfl, rfl, fun h => ?_⟩
  have h2 : (Except.error .fileNotFound : Except ObsError (List (Option Bytes))) =
      .ok [none] := h
  exact Except.noConfusion h2

/-- C1 (amended): `get_partial_values` returns a list of the same length and
order as its input in which each position holds exactly the buffer a
sequential `get` with that position's pair produces — whenever the batched
call succeeds; a pair whose key the backend cannot serve does not yield `None`
at its position but makes the whole batch fail with the backend's error. -/
theorem get_partial_values_contract (store : ObsStore)
    (key_ranges : List (String × Option ByteRequest)) :
    (∀ result, get_partial_values store key_ranges = .ok result →
      result.length = key_ranges.length ∧
        ∀ (i : Nat) (req : String × Option ByteRequest),
          key_ranges[i]? = some req →
            ∃ b, result[i]? = some (some b) ∧
              ObjectStore.get store req.1 req.2 = .ok (some b)) ∧
    (∀ (i : Nat) (req : String × Option ByteRequest),
      key_ranges[i]? = some req → ∀ e, store req.1 = .error e →
        ∃ e2, get_partial_values store key_ranges = .error e2) := by
  obtain ⟨hGS, hOS⟩ := partitionRequests_sound key_ranges
  constructor
  · intro result h
    unfold get_partial_values at h
    cases hm : (buildFuts store (partitionRequests key_ranges)).mapM id with
    | error e => rw [hm] at h; exact absurd h (by simp)
    | ok responses =>
        rw [hm] at h
        simp only [Except.ok.injEq] at h
        subst h
        have hsound : ∀ p ∈ responses.flatten,
            ∃ req2 : String × Option ByteRequest,
              key_ranges[p.1]? = some req2 ∧
                ObjectStore.get store req2.1 req2.2 = .ok (some p.2) := by
          intro p hp
          obtain ⟨resp, hresp, hpresp⟩ := List.mem_flatten.mp hp
          obtain ⟨fut, hfut, hfr⟩ := exceptMapM_ok_mem_right hm hresp
          rcases List.mem_append.mp hfut with hfb | hfo
          · obtain ⟨g, hg, rfl⟩ := List.mem_map.mp hfb
            have hok : makeBoundedRequests store g.1 g.2 = .ok resp := hfr
            obtain ⟨hlen, hpt⟩ := makeBoundedRequests_ok hok
            obtain ⟨k, hk⟩ := mem_getElem? hpresp
            have hkr : k < g.2.length := by
              have := lt_of_getElem?_eq_some hk
              omega
            obtain ⟨r, hrk⟩ : ∃ r, g.2[k]? = some r :=
              ⟨g.2[k], List.getElem?_eq_getElem hkr⟩
            obtain ⟨b, hb, hgb⟩ := hpt k r hrk
            rw [hk] at hb
            obtain rfl : p = (r.original_request_index, b) := by injection hb
            exact ⟨(g.1, some (.range r.start r.stop)),
              hGS g hg r (List.getElem?_mem hrk), get_of_range_ok hgb⟩
          · obtain ⟨o, ho, rfl⟩ := List.mem_map.mp hfo
            have hok : makeOtherRequest store o = .ok resp := hfr
            obtain ⟨b, rfl, hget⟩ := makeOtherRequest_ok hok
            obtain rfl : p = (o.original_request_index, b) :=
              List.mem_singleton.mp hpresp
            exact ⟨(o.path, otherToByteRequest o.range), hOS o ho, hget⟩
        have hcompl : ∀ i : Nat, i < key_ranges.length →
            ∃ b, (i, b) ∈ responses.flatten := by
          intro i hi
          rcases partitionRequests_complete key_ranges i hi with
            ⟨g, hg, r, hr, hre⟩ | ⟨o, ho, hoe⟩
          · subst hre
            have hfut : makeBoundedRequests store g.1 g.2 ∈
                buildFuts store (partitionRequests key_ranges) :=
              List.mem_append.mpr (.inl (List.mem_map.mpr ⟨g, hg, rfl⟩))
            obtain ⟨resp, hresp, hfr⟩ := exceptMapM_ok_mem_left hm hfut
            have hok : makeBoundedRequests store g.1 g.2 = .ok resp := hfr
            obtain ⟨hlen, hpt⟩ := makeBoundedRequests_ok hok
            obtain ⟨k, hk⟩ := mem_getElem? hr
            obtain ⟨b, hb, -⟩ := hpt k r hk
            exact ⟨b, List.mem_flatten.mpr ⟨resp, hresp, List.getElem?_mem hb⟩⟩
          · subst hoe
            have hfut : makeOtherRequest store o ∈
                buildFuts store (partitionRequests key_ranges) :=
              List.mem_append.mpr (.inr (List.mem_map.mpr ⟨o, ho, rfl⟩))
            obtain ⟨resp, hresp, hfr⟩ := exceptMapM_ok_mem_left hm hfut
            have hok : makeOtherRequest store o = .ok resp := hfr
            obtain ⟨b, rfl, -⟩ := makeOtherRequest_ok hok
            exact ⟨b, List.mem_flatten.mpr
              ⟨_, hresp, List.mem_singleton.mpr rfl⟩⟩
        refine ⟨by rw [foldl_set_length, List.length_replicate], ?_⟩
        intro i req hreq
        have hi : i < key_ranges.length := lt_of_getElem?_eq_some hreq
        obtain ⟨b0, hb0⟩ := hcompl i hi
        obtain ⟨req2, hreq2, hget0⟩ := hsound (i, b0) hb0
        rw [hreq] at hreq2
        obtain rfl : req = req2 := by injection hreq2
        refine ⟨b0, ?_, hget0⟩
        refine foldl_set_getElem? responses.flatten
          (List.replicate key_ranges.length none) i b0
          (by rw [List.length_replicate]; exact hi) ?_ (.inl ⟨(i, b0), hb0, rfl⟩)
        intro p hp hpi
        obtain ⟨req3, hreq3, hget3⟩ := hsound p hp
        rw [hpi, hreq] at hreq3
        obtain rfl : req = req3 := by injection hreq3
        have hq : (Except.ok (some p.2) : Except ObsError (Option Bytes)) =
            .ok (some b0) := hget3.symm.trans hget0
        simp only [Except.ok.injEq, Option.some.injEq] at hq
        exact hq
  · intro i req hreq e he
    rcases partitionRequests_complete key_ranges i (lt_of_getElem?_eq_some hreq) with
      ⟨g, hg, r, hr, hre⟩ | ⟨o, ho, hoe⟩
    · have hkey := hGS g hg r hr
      rw [hre, hreq] at hkey
      have hg1 : g.1 = req.1 := by
        obtain rfl : req = (g.1, some (.range r.start r.stop)) := by injection hkey
        rfl
      have hse : store g.1 = .error e := by rw [hg1]; exact he
      obtain ⟨e2, he2⟩ := makeBoundedRequests_error hr hse
      have hfut : makeBoundedRequests store g.1 g.2 ∈
          buildFuts store (partitionRequests key_ranges) :=
        List.mem_append.mpr (.inl (List.mem_map.mpr ⟨g, hg, rfl⟩))
      obtain ⟨e3, he3⟩ :=
        @exceptMapM_error_of_mem ObsError (Except ObsError (List (Nat × Bytes)))
          (List (Nat × Bytes)) id _ _ _ hfut he2
      refine ⟨e3, ?_⟩
      unfold get_partial_values
      rw [he3]
    · have hkey := hOS o ho
      rw [hoe, hreq] at hkey
      have ho1 : o.path = req.1 := by
        obtain rfl : req = (o.path, otherToByteRequest o.range) := by injection hkey
        rfl
      have he2 : makeOtherRequest store o = .error e :=
        makeOtherRequest_error (by rw [ho1]; exact he)
      have hfut : makeOtherRequest store o ∈
          buildFuts store (partitionRequests key_ranges) :=
        List.mem_append.mpr (.inr (List.mem_map.mpr ⟨o, ho, rfl⟩))
      obtain ⟨e3, he3⟩ :=
        @exceptMapM_error_of_mem ObsError (Except ObsError (List (Nat × Bytes)))
          (List (Nat × Bytes)) id _ _ _ hfut he2
      refine ⟨e3, ?_⟩
      unfold get_partial_values
      rw [he3]

/-- Witness for the amended C1: over the single-object backend, a bounded and
a full read of `"a"` reassemble to the sequential `get` results, and a batch
containing the missing key `"missing"` fails as a whole. -/
theorem get_partial_values_contract_witness :
    (∃ b, ([some [2, 3], some [1, 2, 3, 4]] :
        List (Option Bytes))[0]? = some (some b) ∧
      ObjectStore.get smallStore "a" (some (.range 1 3)) = .ok (some b)) ∧
    (∃ e2, get_partial_values smallStore [("a", none), ("missing", none)] =
      .error e2) :=
  ⟨((get_partial_values_contract smallStore
      [("a", some (.range 1 3)), ("a", none)]).1
      [some [2, 3], some [1, 2, 3, 4]] rfl).2 0 ("a", some (.range 1 3)) rfl,
   (get_partial_values_contract smallStore [("a", none), ("missing", none)]).2
      1 ("missing", none) rfl .fileNotFound rfl⟩

end Zarr
